import Mathlib

/-!
Verification of the hierarchy-tree builder of the quantum circuit packing
notebook (`packing.ipynb`).

The notebook defines two functions:

* `F(A, B, coupling_graph)` — the pairwise score; its body is `pass`, so it
  returns Python `None` for every input.
* `generate_hierarchy_tree(qubits, coupling_graph)` — builds a hierarchy tree
  as an `nx.DiGraph`: it adds one leaf node per qubit, then repeatedly scans
  all unordered pairs of unmerged items (in nested-loop order), keeps the
  first pair whose score strictly exceeds the running maximum `f_max`
  (initialised to `-1`), and merges that pair under a fresh node whose
  identifier is the current node count.  If no pair beats `f_max` the loop
  breaks.

We embed the function three times, each a direct translation of the same
source text with the score-function hole instantiated differently:

* `generate_hierarchy_tree` — the score function is an arbitrary
  rational-valued parameter (the spec's "real-valued PairScore");
* `generate_hierarchy_tree_src` — the score function is the notebook's `F`
  (always `None`); the Python comparison `None > f_max` raises `TypeError`,
  modelled with `Except`;
* `generate_hierarchy_treeST` — the score function may also rewrite the
  coupling graph; the graph is threaded through every call, which lets us
  state that the builder itself never writes to it.

The `while` loop is translated with a fuel argument equal to `qubits`: every
iteration either breaks or shrinks the unmerged list by one (two removals,
one append), so at most `qubits - 1` iterations can ever run;
`mergeLoop_fuel_stable` below proves that the fuel bound is never hit.
-/

namespace Packing

open scoped List

/-- A networkx undirected `Graph` (nodes plus edges), the `coupling_graph`
argument.  `generate_hierarchy_tree` never inspects it: it only hands it to
the score function. -/
structure CouplingGraph where
  nodes : List Nat
  edges : List (Nat × Nat)
deriving DecidableEq

/-- A networkx `DiGraph` as the notebook uses it: nodes in insertion order,
each with its attribute list (the notebook never passes attributes, so the
builder only ever creates empty ones), and directed edges in insertion
order. -/
structure DiGraph where
  nodes : List (Nat × List (String × ℚ))
  edges : List (Nat × Nat)
deriving DecidableEq

/-- The node identifiers of a `DiGraph`, in insertion order
(`list(HT.nodes)`). -/
def DiGraph.nodeIds (g : DiGraph) : List Nat :=
  g.nodes.map Prod.fst

/-- `len(HT.nodes)`. -/
def DiGraph.numNodes (g : DiGraph) : Nat :=
  g.nodes.length

/-- `DiGraph.add_node(n)` with no attributes: a no-op when the node exists,
otherwise the node is appended with an empty attribute list. -/
def DiGraph.add_node (g : DiGraph) (n : Nat) : DiGraph :=
  if n ∈ g.nodeIds then g else DiGraph.mk (g.nodes ++ [(n, [])]) g.edges

/-- `DiGraph.add_edge(u, v)`: missing endpoints are created first, then the
directed edge is appended unless it is already present. -/
def DiGraph.add_edge (g : DiGraph) (u v : Nat) : DiGraph :=
  let g1 := (g.add_node u).add_node v
  if (u, v) ∈ g1.edges then g1 else DiGraph.mk g1.nodes (g1.edges ++ [(u, v)])

/-- Steps 1–2 of the algorithm: `HT = nx.DiGraph()` followed by
`for node in range(qubits): HT.add_node(node)`. -/
def initHT (qubits : Nat) : DiGraph :=
  (List.range qubits).foldl (fun g n => g.add_node n) (DiGraph.mk [] [])

/-- The unordered pairs `(unmerged_items[i], unmerged_items[j])` with
`i < j`, in exactly the order the notebook's nested `for` loops visit
them. -/
def pairList : List Nat → List (Nat × Nat)
  | [] => []
  | a :: rest => rest.map (fun b => (a, b)) ++ pairList rest

/-- The body of the notebook's inner scan for one pair: compute
`f = F(A, B, coupling_graph)` and update `(f_max, pair_to_merge)` when
`f > f_max`. -/
def scanStep (F : Nat → Nat → CouplingGraph → ℚ) (cg : CouplingGraph)
    (st : ℚ × Option (Nat × Nat)) (p : Nat × Nat) : ℚ × Option (Nat × Nat) :=
  if st.1 < F p.1 p.2 cg then (F p.1 p.2 cg, some p) else st

/-- Step 4: scan all pairs starting from `f_max = -1`,
`pair_to_merge = None`, and return the final `pair_to_merge`. -/
def selectPair (F : Nat → Nat → CouplingGraph → ℚ) (cg : CouplingGraph)
    (items : List Nat) : Option (Nat × Nat) :=
  ((pairList items).foldl (scanStep F cg) (-1, none)).2

/-- Steps 5–6 plus the bookkeeping on `unmerged_items`:
`new_node = len(HT.nodes)`, the two edges, the redundant `add_node`, then
`remove(A)`, `remove(B)`, `append(new_node)`. -/
def mergeStep (g : DiGraph) (items : List Nat) (A B : Nat) :
    DiGraph × List Nat :=
  let newNode := g.numNodes
  (((g.add_edge newNode A).add_edge newNode B).add_node newNode,
    (items.erase A).erase B ++ [newNode])

/-- The `while len(unmerged_items) > 1` loop, with fuel bounding the number
of iterations.  Each iteration either breaks (`pair_to_merge is None`) or
performs one merge step. -/
def mergeLoop (F : Nat → Nat → CouplingGraph → ℚ) (cg : CouplingGraph) :
    Nat → DiGraph → List Nat → DiGraph
  | 0, g, _ => g
  | fuel + 1, g, items =>
    if 1 < items.length then
      match selectPair F cg items with
      | none => g
      | some (A, B) =>
        let s := mergeStep g items A B
        mergeLoop F cg fuel s.1 s.2
    else g

/-- `generate_hierarchy_tree(qubits, coupling_graph)` with the score
function as a rational-valued parameter. -/
def generate_hierarchy_tree (F : Nat → Nat → CouplingGraph → ℚ)
    (qubits : Nat) (cg : CouplingGraph) : DiGraph :=
  let HT := initHT qubits
  mergeLoop F cg qubits HT HT.nodeIds

/-- The notebook's score function `F`: its body is `pass`, so every call
returns Python `None`. -/
def F_src (A B : Nat) (cg : CouplingGraph) : Option ℚ :=
  none

/-- The inner scan with the notebook's own `F`.  `f > f_max` compares
`None` with a number, which raises `TypeError` in Python 3. -/
def scanStepE (cg : CouplingGraph) (st : ℚ × Option (Nat × Nat))
    (p : Nat × Nat) : Except String (ℚ × Option (Nat × Nat)) :=
  match F_src p.1 p.2 cg with
  | none => Except.error "TypeError"
  | some f => Except.ok (if st.1 < f then (f, some p) else st)

/-- Step 4 with the notebook's own `F`: the scan aborts with the first
raised `TypeError`. -/
def selectPairE (cg : CouplingGraph) (items : List Nat) :
    Except String (Option (Nat × Nat)) :=
  ((pairList items).foldlM (scanStepE cg) (-1, none)).map (fun st => st.2)

/-- The `while` loop with the notebook's own `F`; a raised `TypeError`
propagates out of the loop. -/
def mergeLoopE (cg : CouplingGraph) :
    Nat → DiGraph → List Nat → Except String DiGraph
  | 0, g, _ => Except.ok g
  | fuel + 1, g, items =>
    if 1 < items.length then
      match selectPairE cg items with
      | Except.error e => Except.error e
      | Except.ok none => Except.ok g
      | Except.ok (some (A, B)) =>
        let s := mergeStep g items A B
        mergeLoopE cg fuel s.1 s.2
    else Except.ok g

/-- `generate_hierarchy_tree(qubits, coupling_graph)` exactly as written in
the notebook, with its own `F` (which returns `None`). -/
def generate_hierarchy_tree_src (qubits : Nat) (cg : CouplingGraph) :
    Except String DiGraph :=
  let HT := initHT qubits
  mergeLoopE cg qubits HT HT.nodeIds

/-- The inner scan with a score function that may also rewrite the coupling
graph; the graph is threaded through every call, in evaluation order. -/
def scanStepST (F : Nat → Nat → CouplingGraph → ℚ × CouplingGraph)
    (st : (ℚ × Option (Nat × Nat)) × CouplingGraph) (p : Nat × Nat) :
    (ℚ × Option (Nat × Nat)) × CouplingGraph :=
  let r := F p.1 p.2 st.2
  (if st.1.1 < r.1 then (r.1, some p) else st.1, r.2)

/-- Step 4 with the coupling graph threaded through the scan. -/
def selectPairST (F : Nat → Nat → CouplingGraph → ℚ × CouplingGraph)
    (items : List Nat) (cg : CouplingGraph) :
    Option (Nat × Nat) × CouplingGraph :=
  let r := (pairList items).foldl (scanStepST F) ((-1, none), cg)
  (r.1.2, r.2)

/-- The `while` loop with the coupling graph threaded through. -/
def mergeLoopST (F : Nat → Nat → CouplingGraph → ℚ × CouplingGraph) :
    Nat → DiGraph → List Nat → CouplingGraph → DiGraph × CouplingGraph
  | 0, g, _, cg => (g, cg)
  | fuel + 1, g, items, cg =>
    if 1 < items.length then
      match selectPairST F items cg with
      | (none, cg') => (g, cg')
      | (some (A, B), cg') =>
        let s := mergeStep g items A B
        mergeLoopST F fuel s.1 s.2 cg'
    else (g, cg)

/-- `generate_hierarchy_tree` with the coupling graph threaded through,
returning the final coupling graph next to the tree. -/
def generate_hierarchy_treeST (F : Nat → Nat → CouplingGraph → ℚ × CouplingGraph)
    (qubits : Nat) (cg : CouplingGraph) : DiGraph × CouplingGraph :=
  let HT := initHT qubits
  mergeLoopST F qubits HT HT.nodeIds cg

/-- Out-degree of a node: the number of stored edges leaving it. -/
def DiGraph.outdeg (g : DiGraph) (n : Nat) : Nat :=
  (g.edges.filter (fun e => e.1 = n)).length

/-- In-degree of a node: the number of stored edges entering it. -/
def DiGraph.indeg (g : DiGraph) (n : Nat) : Nat :=
  (g.edges.filter (fun e => e.2 = n)).length

/-- The leaves of the hierarchy tree: nodes with no children. -/
def DiGraph.leafIds (g : DiGraph) : List Nat :=
  g.nodeIds.filter (fun n => g.outdeg n = 0)

/-- The internal nodes of the hierarchy tree: nodes with children. -/
def DiGraph.internalIds (g : DiGraph) : List Nat :=
  g.nodeIds.filter (fun n => 0 < g.outdeg n)

/-- The roots of the forest: nodes with no parent. -/
def DiGraph.rootIds (g : DiGraph) : List Nat :=
  g.nodeIds.filter (fun n => g.indeg n = 0)

/-- The edge relation of a `DiGraph`. -/
def DiGraph.Edge (g : DiGraph) (u v : Nat) : Prop :=
  (u, v) ∈ g.edges

/-- A `DiGraph` is acyclic when no node reaches itself by a nonempty edge
path. -/
def DiGraph.Acyclic (g : DiGraph) : Prop :=
  ∀ n, ¬ Relation.TransGen g.Edge n n

/-- `r` reaches every node of the graph along directed edges (so the graph
is connected with `r` on top). -/
def DiGraph.ReachAll (g : DiGraph) (r : Nat) : Prop :=
  ∀ n ∈ g.nodeIds, Relation.ReflTransGen g.Edge r n

/-- The attribute list of node `n`, when the node exists. -/
def DiGraph.nodeAttr (g : DiGraph) (n : Nat) : Option (List (String × ℚ)) :=
  (g.nodes.find? (fun p => p.1 == n)).map (fun p => p.2)

/-- The merge score recorded on node `n`, if any: the `"score"` attribute
of the node. -/
def DiGraph.storedScore (g : DiGraph) (n : Nat) : Option ℚ :=
  match g.nodeAttr n with
  | none => none
  | some attrs => (attrs.find? (fun a => a.1 == "score")).map (fun a => a.2)

/-- The states `(HT, unmerged_items)` the loop of `generate_hierarchy_tree`
can reach on `qubits` and `cg` with score function `F`. -/
inductive Reaches (F : Nat → Nat → CouplingGraph → ℚ) (cg : CouplingGraph)
    (qubits : Nat) : DiGraph × List Nat → Prop where
  | init : Reaches F cg qubits (initHT qubits, (initHT qubits).nodeIds)
  | step {g : DiGraph} {items : List Nat} {A B : Nat} :
      Reaches F cg qubits (g, items) → 1 < items.length →
      selectPair F cg items = some (A, B) →
      Reaches F cg qubits (mergeStep g items A B)

/-- An empty coupling graph, used for concrete instances. -/
def cg0 : CouplingGraph :=
  CouplingGraph.mk [] []

/-- The fully-disconnected four-qubit topology of the spec's scenario C. -/
def cg4 : CouplingGraph :=
  CouplingGraph.mk [0, 1, 2, 3] []

/-- Strict lexicographic order on pairs of node identifiers. -/
def LexLt (p q : Nat × Nat) : Prop :=
  p.1 < q.1 ∨ (p.1 = q.1 ∧ p.2 < q.2)

/-! ### Basic facts about `initHT` and ranges -/

theorem initHT_eq (q : Nat) :
    initHT q = DiGraph.mk ((List.range q).map (fun n => (n, []))) [] := by
  induction q with
  | zero => rfl
  | succ n ih =>
    unfold initHT at ih ⊢
    rw [List.range_succ, List.foldl_append, ih]
    simp only [List.foldl_cons, List.foldl_nil, DiGraph.add_node, DiGraph.nodeIds,
      List.map_map]
    rw [if_neg]
    · simp [List.range_succ]
    · simp

theorem initHT_nodeIds (q : Nat) : (initHT q).nodeIds = List.range q := by
  rw [initHT_eq]
  simp [DiGraph.nodeIds, List.map_map, Function.comp_def]

theorem initHT_numNodes (q : Nat) : (initHT q).numNodes = q := by
  rw [initHT_eq]
  simp [DiGraph.numNodes]

theorem filter_range_eq_single {r m : Nat} (hr : r < m) :
    (List.range m).filter (fun n => decide (n = r)) = [r] := by
  induction m with
  | zero => omega
  | succ k ih =>
    rw [List.range_succ, List.filter_append]
    rcases Nat.lt_or_ge r k with h | h
    · rw [ih h]
      have hkr : decide (k = r) = false := decide_eq_false (by omega)
      simp [List.filter_cons, hkr]
    · have hrk : r = k := by omega
      subst hrk
      have h1 : (List.range r).filter (fun n => decide (n = r)) = [] := by
        apply List.filter_eq_nil_iff.mpr
        intro a ha
        simp only [decide_eq_true_eq]
        have := List.mem_range.mp ha
        omega
      simp [h1]

/-- Two strictly sorted lists with the same members are equal. -/
theorem sorted_lt_ext {l₁ l₂ : List Nat} (h₁ : l₁.Sorted (· < ·))
    (h₂ : l₂.Sorted (· < ·)) (hm : ∀ x, x ∈ l₁ ↔ x ∈ l₂) : l₁ = l₂ := by
  haveI : IsAntisymm Nat (· < ·) :=
    ⟨fun a b hab hba => absurd (lt_trans hab hba) (lt_irrefl a)⟩
  have d₁ : l₁.Nodup := h₁.imp (fun h => Nat.ne_of_lt h)
  have d₂ : l₂.Nodup := h₂.imp (fun h => Nat.ne_of_lt h)
  exact List.eq_of_perm_of_sorted ((List.perm_ext_iff_of_nodup d₁ d₂).mpr hm) h₁ h₂

/-! ### Facts about `List.erase` needed for the unmerged-items bookkeeping -/

theorem mem_erase_of_pair_sublist {A B : Nat} {l : List Nat}
    (h : [A, B] <+ l) : B ∈ l.erase A := by
  induction l with
  | nil => cases h
  | cons x t ih =>
    cases h with
    | cons ht =>
      rename_i ht
      by_cases hx : x = A
      · subst hx
        rw [List.erase_cons_head]
        exact ht.subset (by simp)
      · rw [List.erase_cons_tail (by simpa using hx)]
        exact List.mem_cons_of_mem x (ih ht)
    | cons₂ ht =>
      rename_i ht
      rw [List.erase_cons_head]
      exact List.singleton_sublist.mp ht

theorem pair_sublist_length {A B : Nat} {l : List Nat} (h : [A, B] <+ l) :
    2 ≤ l.length := by
  have := h.length_le
  simpa using this

/-! ### Facts about `pairList` -/

theorem mem_pairList_iff {p : Nat × Nat} :
    ∀ {l : List Nat}, p ∈ pairList l ↔ [p.1, p.2] <+ l := by
  intro l
  induction l with
  | nil => simp [pairList]
  | cons a t ih =>
    simp only [pairList, List.mem_append, List.mem_map, ih]
    constructor
    · rintro (⟨b, hb, hp⟩ | hs)
      · subst hp
        exact (List.singleton_sublist.mpr hb).cons₂ a
      · exact hs.cons a
    · intro hs
      cases hs with
      | cons _ h' => exact Or.inr h'
      | cons₂ _ h' =>
        left
        exact ⟨p.2, List.singleton_sublist.mp h', rfl⟩

theorem pairList_fst_mem {p : Nat × Nat} {l : List Nat} (h : p ∈ pairList l) :
    p.1 ∈ l :=
  (mem_pairList_iff.mp h).subset (by simp)

theorem pairList_snd_mem {p : Nat × Nat} {l : List Nat} (h : p ∈ pairList l) :
    p.2 ∈ l :=
  (mem_pairList_iff.mp h).subset (by simp)

theorem pair_sublist_of_sorted {A B : Nat} :
    ∀ {l : List Nat}, l.Sorted (· < ·) → A ∈ l → B ∈ l → A < B → [A, B] <+ l
  | [], _, hA, _, _ => by cases hA
  | x :: t, hs, hA, hB, hAB => by
    have hst : t.Sorted (· < ·) := (List.sorted_cons.mp hs).2
    have hxt : ∀ y ∈ t, x < y := (List.sorted_cons.mp hs).1
    by_cases hxA : A = x
    · subst hxA
      have hBt : B ∈ t := by
        cases List.mem_cons.mp hB with
        | inl h => omega
        | inr h => exact h
      exact (List.singleton_sublist.mpr hBt).cons₂ A
    · have hAt : A ∈ t := by
        cases List.mem_cons.mp hA with
        | inl h => exact absurd h hxA
        | inr h => exact h
      have hBt : B ∈ t := by
        cases List.mem_cons.mp hB with
        | inl h =>
          exfalso
          have := hxt A hAt
          omega
        | inr h => exact h
      exact (pair_sublist_of_sorted hst hAt hBt hAB).cons x

theorem pairList_mem_of_sorted {A B : Nat} {l : List Nat}
    (hs : l.Sorted (· < ·)) (hA : A ∈ l) (hB : B ∈ l) (hAB : A < B) :
    (A, B) ∈ pairList l :=
  mem_pairList_iff.mpr (pair_sublist_of_sorted hs hA hB hAB)

theorem pairList_pairwise {l : List Nat} (hs : l.Sorted (· < ·)) :
    (pairList l).Pairwise LexLt := by
  induction l with
  | nil => simp [pairList]
  | cons a t ih =>
    have hst : t.Sorted (· < ·) := (List.sorted_cons.mp hs).2
    have hat : ∀ y ∈ t, a < y := (List.sorted_cons.mp hs).1
    simp only [pairList]
    rw [List.pairwise_append]
    refine ⟨?_, ih hst, ?_⟩
    · rw [List.pairwise_map]
      exact hst.imp (fun h => Or.inr ⟨rfl, h⟩)
    · intro p hp q hq
      obtain ⟨b, _, rfl⟩ := List.mem_map.mp hp
      exact Or.inl (hat q.1 (pairList_fst_mem hq))

theorem pairList_nonempty {a b : Nat} {t : List Nat} :
    (a, b) ∈ pairList (a :: b :: t) := by
  simp [pairList]

/-! ### The scan: what `f_max`/`pair_to_merge` hold after the nested loops -/

/-- The score of one candidate pair. -/
def scoreOf (F : Nat → Nat → CouplingGraph → ℚ) (cg : CouplingGraph)
    (p : Nat × Nat) : ℚ :=
  F p.1 p.2 cg

/-- Running the scan either never updates the state (all scores at most the
starting `f_max`), or ends at the first pair attaining the overall maximum:
everything before it scores strictly less, everything after it at most as
much. -/
theorem scan_cases (F : Nat → Nat → CouplingGraph → ℚ) (cg : CouplingGraph) :
    ∀ (ps : List (Nat × Nat)) (st : ℚ × Option (Nat × Nat)),
      (ps.foldl (scanStep F cg) st = st ∧ ∀ p ∈ ps, scoreOf F cg p ≤ st.1) ∨
      (∃ l1 pr l2, ps = l1 ++ pr :: l2 ∧ st.1 < scoreOf F cg pr ∧
        (∀ p ∈ l1, scoreOf F cg p < scoreOf F cg pr) ∧
        (∀ p ∈ l2, scoreOf F cg p ≤ scoreOf F cg pr) ∧
        ps.foldl (scanStep F cg) st = (scoreOf F cg pr, some pr)) := by
  intro ps
  induction ps with
  | nil => exact fun st => Or.inl ⟨rfl, by simp⟩
  | cons p ps ih =>
    intro st
    by_cases h : st.1 < scoreOf F cg p
    · have hstep : scanStep F cg st p = (scoreOf F cg p, some p) := by
        simp only [scanStep, scoreOf] at h ⊢
        rw [if_pos h]
      rcases ih (scoreOf F cg p, some p) with ⟨heq, hb⟩ |
        ⟨l1, pr, l2, hps, hlt, hl1, hl2, heq⟩
      · right
        refine ⟨[], p, ps, rfl, h, by simp, fun q hq => by simpa using hb q hq, ?_⟩
        rw [List.foldl_cons, hstep, heq]
      · right
        refine ⟨p :: l1, pr, l2, by rw [hps]; rfl, lt_trans h hlt, ?_, hl2, ?_⟩
        · intro q hq
          rcases List.mem_cons.mp hq with rfl | hq'
          · exact hlt
          · exact hl1 q hq'
        · rw [List.foldl_cons, hstep, heq]
    · have hstep : scanStep F cg st p = st := by
        simp only [scanStep, scoreOf] at h ⊢
        rw [if_neg h]
      rcases ih st with ⟨heq, hb⟩ | ⟨l1, pr, l2, hps, hlt, hl1, hl2, heq⟩
      · left
        refine ⟨by rw [List.foldl_cons, hstep, heq], ?_⟩
        intro q hq
        rcases List.mem_cons.mp hq with rfl | hq'
        · exact not_lt.mp h
        · exact hb q hq'
      · right
        refine ⟨p :: l1, pr, l2, by rw [hps]; rfl, hlt, ?_, hl2, ?_⟩
        · intro q hq
          rcases List.mem_cons.mp hq with rfl | hq'
          · exact lt_of_le_of_lt (not_lt.mp h) hlt
          · exact hl1 q hq'
        · rw [List.foldl_cons, hstep, heq]

theorem selectPair_eq_none_iff {F : Nat → Nat → CouplingGraph → ℚ}
    {cg : CouplingGraph} {items : List Nat} :
    selectPair F cg items = none ↔
      ∀ p ∈ pairList items, scoreOf F cg p ≤ -1 := by
  unfold selectPair
  rcases scan_cases F cg (pairList items) (-1, none) with ⟨heq, hb⟩ |
    ⟨l1, pr, l2, hps, hlt, _, _, heq⟩
  · rw [heq]
    exact ⟨fun _ => hb, fun _ => rfl⟩
  · rw [heq]
    constructor
    · intro h
      cases h
    · intro hall
      exfalso
      have : scoreOf F cg pr ≤ -1 := hall pr (by rw [hps]; simp)
      exact absurd hlt (not_lt.mpr this)

theorem selectPair_some_spec {F : Nat → Nat → CouplingGraph → ℚ}
    {cg : CouplingGraph} {items : List Nat} {pr : Nat × Nat}
    (h : selectPair F cg items = some pr) :
    ∃ l1 l2, pairList items = l1 ++ pr :: l2 ∧ -1 < scoreOf F cg pr ∧
      (∀ p ∈ l1, scoreOf F cg p < scoreOf F cg pr) ∧
      (∀ p ∈ l2, scoreOf F cg p ≤ scoreOf F cg pr) := by
  unfold selectPair at h
  rcases scan_cases F cg (pairList items) (-1, none) with ⟨heq, _⟩ |
    ⟨l1, pr', l2, hps, hlt, hl1, hl2, heq⟩
  · rw [heq] at h
    cases h
  · rw [heq] at h
    have hpr : pr' = pr := by simpa using h
    subst hpr
    exact ⟨l1, l2, hps, hlt, hl1, hl2⟩

theorem selectPair_mem {F : Nat → Nat → CouplingGraph → ℚ}
    {cg : CouplingGraph} {items : List Nat} {pr : Nat × Nat}
    (h : selectPair F cg items = some pr) : pr ∈ pairList items := by
  obtain ⟨l1, l2, hps, _, _, _⟩ := selectPair_some_spec h
  rw [hps]
  simp

theorem selectPair_sublist {F : Nat → Nat → CouplingGraph → ℚ}
    {cg : CouplingGraph} {items : List Nat} {A B : Nat}
    (h : selectPair F cg items = some (A, B)) : [A, B] <+ items :=
  mem_pairList_iff.mp (selectPair_mem h)

theorem selectPair_pos {F : Nat → Nat → CouplingGraph → ℚ}
    {cg : CouplingGraph} {items : List Nat} {A B : Nat}
    (h : selectPair F cg items = some (A, B)) : -1 < F A B cg := by
  obtain ⟨_, _, _, hlt, _, _⟩ := selectPair_some_spec h
  exact hlt

theorem selectPair_max {F : Nat → Nat → CouplingGraph → ℚ}
    {cg : CouplingGraph} {items : List Nat} {pr : Nat × Nat}
    (h : selectPair F cg items = some pr) :
    ∀ p ∈ pairList items, scoreOf F cg p ≤ scoreOf F cg pr := by
  obtain ⟨l1, l2, hps, _, hl1, hl2⟩ := selectPair_some_spec h
  intro p hp
  rw [hps] at hp
  rcases List.mem_append.mp hp with h1 | h2
  · exact le_of_lt (hl1 p h1)
  · rcases List.mem_cons.mp h2 with rfl | h2'
    · exact le_refl _
    · exact hl2 p h2'

/-- Among pairs tying with the selected pair for the maximum score, the
selected pair is lexicographically least (the scan visits pairs of a sorted
list in lexicographic order and only a strict improvement replaces the
candidate). -/
theorem selectPair_lex_min {F : Nat → Nat → CouplingGraph → ℚ}
    {cg : CouplingGraph} {items : List Nat} {pr : Nat × Nat}
    (hs : items.Sorted (· < ·)) (h : selectPair F cg items = some pr) :
    ∀ p ∈ pairList items, scoreOf F cg p = scoreOf F cg pr →
      pr = p ∨ LexLt pr p := by
  obtain ⟨l1, l2, hps, _, hl1, _⟩ := selectPair_some_spec h
  have hpw : (pairList items).Pairwise LexLt := pairList_pairwise hs
  rw [hps] at hpw
  have hl2lex : ∀ p ∈ l2, LexLt pr p :=
    fun p hp => List.rel_of_pairwise_cons ((List.pairwise_append.mp hpw).2.1) hp
  intro p hp htie
  rw [hps] at hp
  rcases List.mem_append.mp hp with h1 | h2
  · exact absurd htie (ne_of_lt (hl1 p h1))
  · rcases List.mem_cons.mp h2 with rfl | h2'
    · exact Or.inl rfl
    · exact Or.inr (hl2lex p h2')

theorem selectPair_isSome {F : Nat → Nat → CouplingGraph → ℚ}
    {cg : CouplingGraph} {items : List Nat} (hlen : 1 < items.length)
    (hF : ∀ x y, -1 < F x y cg) :
    ∃ A B, selectPair F cg items = some (A, B) := by
  obtain ⟨a, b, t, rfl⟩ : ∃ a b t, items = a :: b :: t := by
    match items, hlen with
    | a :: b :: t, _ => exact ⟨a, b, t, rfl⟩
  rcases hsel : selectPair F cg (a :: b :: t) with _ | ⟨A, B⟩
  · exfalso
    have := (selectPair_eq_none_iff.mp hsel) (a, b) pairList_nonempty
    exact absurd (hF a b) (not_lt.mpr this)
  · exact ⟨A, B, rfl⟩

/-! ### Graph-surgery lemmas for one merge step -/

theorem add_node_of_mem {g : DiGraph} {n : Nat} (h : n ∈ g.nodeIds) :
    g.add_node n = g := by
  unfold DiGraph.add_node
  rw [if_pos h]

theorem add_node_of_not_mem {g : DiGraph} {n : Nat} (h : n ∉ g.nodeIds) :
    g.add_node n = DiGraph.mk (g.nodes ++ [(n, [])]) g.edges := by
  unfold DiGraph.add_node
  rw [if_neg h]

theorem add_node_edges (g : DiGraph) (n : Nat) :
    (g.add_node n).edges = g.edges := by
  unfold DiGraph.add_node
  split <;> rfl

theorem add_edge_of_not_mem {g : DiGraph} {u v : Nat}
    (h : (u, v) ∉ ((g.add_node u).add_node v).edges) :
    g.add_edge u v =
      DiGraph.mk ((g.add_node u).add_node v).nodes
        (((g.add_node u).add_node v).edges ++ [(u, v)]) := by
  unfold DiGraph.add_edge
  rw [if_neg h]

/-- Under the loop invariant's shape facts, one merge step appends exactly
one bare node (the fresh identifier `g.numNodes`) and the two child
edges. -/
theorem mergeStep_graph {g : DiGraph} {items : List Nat} {A B : Nat}
    (hids : g.nodeIds = List.range g.numNodes)
    (hub : ∀ e ∈ g.edges, e.1 < g.numNodes)
    (hA : A < g.numNodes) (hB : B < g.numNodes) (hAB : A ≠ B) :
    (mergeStep g items A B).1 =
      DiGraph.mk (g.nodes ++ [(g.numNodes, [])])
        (g.edges ++ [(g.numNodes, A), (g.numNodes, B)]) := by
  have hmnot : g.numNodes ∉ g.nodeIds := by
    rw [hids]
    simp
  have h1 : g.add_node g.numNodes =
      DiGraph.mk (g.nodes ++ [(g.numNodes, [])]) g.edges :=
    add_node_of_not_mem hmnot
  have hids1 : (DiGraph.mk (g.nodes ++ [(g.numNodes, [])]) g.edges).nodeIds =
      g.nodeIds ++ [g.numNodes] := by
    simp [DiGraph.nodeIds]
  have hAin : A ∈ (DiGraph.mk (g.nodes ++ [(g.numNodes, [])]) g.edges).nodeIds := by
    rw [hids1, hids]
    exact List.mem_append_left _ (List.mem_range.mpr hA)
  have hBin : B ∈ (DiGraph.mk (g.nodes ++ [(g.numNodes, [])]) g.edges).nodeIds := by
    rw [hids1, hids]
    exact List.mem_append_left _ (List.mem_range.mpr hB)
  have h2 : (g.add_node g.numNodes).add_node A =
      DiGraph.mk (g.nodes ++ [(g.numNodes, [])]) g.edges := by
    rw [h1]
    exact add_node_of_mem hAin
  have hnoe1 : (g.numNodes, A) ∉ ((g.add_node g.numNodes).add_node A).edges := by
    rw [h2]
    intro hc
    exact absurd (hub _ hc) (lt_irrefl _)
  have h3 : g.add_edge g.numNodes A =
      DiGraph.mk (g.nodes ++ [(g.numNodes, [])]) (g.edges ++ [(g.numNodes, A)]) := by
    rw [add_edge_of_not_mem hnoe1, h2]
  have hids3 : (g.add_edge g.numNodes A).nodeIds = g.nodeIds ++ [g.numNodes] := by
    rw [h3]
    simp [DiGraph.nodeIds]
  have h4a : (g.add_edge g.numNodes A).add_node g.numNodes =
      g.add_edge g.numNodes A :=
    add_node_of_mem (by rw [hids3]; exact List.mem_append_right _ (by simp))
  have h4b : (g.add_edge g.numNodes A).add_node B = g.add_edge g.numNodes A :=
    add_node_of_mem (by
      rw [hids3, hids]
      exact List.mem_append_left _ (List.mem_range.mpr hB))
  have h4 : ((g.add_edge g.numNodes A).add_node g.numNodes).add_node B =
      g.add_edge g.numNodes A := by
    rw [h4a, h4b]
  have hnoe2 : (g.numNodes, B) ∉
      (((g.add_edge g.numNodes A).add_node g.numNodes).add_node B).edges := by
    rw [h4, h3]
    intro hc
    rcases List.mem_append.mp hc with hold | hnew
    · exact absurd (hub _ hold) (lt_irrefl _)
    · have : B = A := by
        have := List.mem_singleton.mp hnew
        exact (Prod.mk.injEq _ _ _ _).mp this |>.2
      exact hAB this.symm
  have h5 : (g.add_edge g.numNodes A).add_edge g.numNodes B =
      DiGraph.mk (g.nodes ++ [(g.numNodes, [])])
        (g.edges ++ [(g.numNodes, A), (g.numNodes, B)]) := by
    rw [add_edge_of_not_mem hnoe2, h4, h3]
    simp
  have hfinal : ((g.add_edge g.numNodes A).add_edge g.numNodes B).add_node g.numNodes =
      (g.add_edge g.numNodes A).add_edge g.numNodes B := by
    apply add_node_of_mem
    rw [h5]
    simp [DiGraph.nodeIds]
  simp only [mergeStep]
  rw [hfinal, h5]

/-! ### The loop invariant -/

/-- Everything that holds of a loop state `(HT, unmerged_items)` during the
run of `generate_hierarchy_tree` on `q` qubits: node identifiers are
`0, …, numNodes - 1` in order, attributes are empty, edges point from a
larger (later-created) node to a smaller one and every node below `q` is a
leaf while every later node has exactly two children, the unmerged items are
a strictly sorted list of exactly the parentless nodes, and every node is
reachable from some unmerged item. -/
structure LoopInv (q : Nat) (g : DiGraph) (items : List Nat) : Prop where
  ids : g.nodeIds = List.range g.numNodes
  attrs : ∀ p ∈ g.nodes, p.2 = ([] : List (String × ℚ))
  edge_lt : ∀ e ∈ g.edges, e.2 < e.1
  edge_ub : ∀ e ∈ g.edges, e.1 < g.numNodes
  count : g.numNodes + items.length = 2 * q
  ge_q : q ≤ g.numNodes
  sorted : items.Sorted (· < ·)
  mem_lt : ∀ n ∈ items, n < g.numNodes
  outdeg_small : ∀ n, n < q → g.outdeg n = 0
  outdeg_big : ∀ n, q ≤ n → n < g.numNodes → g.outdeg n = 2
  indeg_mem : ∀ n ∈ items, g.indeg n = 0
  indeg_nonmem : ∀ n, n < g.numNodes → n ∉ items → g.indeg n = 1
  reach : ∀ n, n < g.numNodes → ∃ r ∈ items, Relation.ReflTransGen g.Edge r n

theorem loopInv_init (q : Nat) : LoopInv q (initHT q) (List.range q) := by
  have hn : (initHT q).nodes = (List.range q).map (fun n => (n, [])) := by
    rw [initHT_eq]
  have he : (initHT q).edges = [] := by
    rw [initHT_eq]
  have hm : (initHT q).numNodes = q := initHT_numNodes q
  refine ⟨?_, ?_, ?_, ?_, ?_, ?_, ?_, ?_, ?_, ?_, ?_, ?_, ?_⟩
  · rw [initHT_nodeIds, hm]
  · intro p hp
    rw [hn] at hp
    obtain ⟨n, _, rfl⟩ := List.mem_map.mp hp
    rfl
  · intro e he'
    rw [he] at he'
    cases he'
  · intro e he'
    rw [he] at he'
    cases he'
  · rw [hm]
    simp
    omega
  · omega
  · exact List.sorted_lt_range q
  · intro n hn'
    rw [hm]
    exact List.mem_range.mp hn'
  · intro n _
    simp [DiGraph.outdeg, he]
  · intro n h1 h2
    rw [hm] at h2
    omega
  · intro n _
    simp [DiGraph.indeg, he]
  · intro n h1 h2
    rw [hm] at h1
    exact absurd (List.mem_range.mpr h1) h2
  · intro n hn'
    rw [hm] at hn'
    exact ⟨n, List.mem_range.mpr hn', Relation.ReflTransGen.refl⟩

theorem two_edge_out (m A B n : Nat) :
    (([(m, A), (m, B)] : List (Nat × Nat)).filter (fun e => e.1 = n)).length =
      if m = n then 2 else 0 := by
  by_cases h : m = n
  · subst h
    simp [List.filter]
  · simp [List.filter, h]

theorem two_edge_in (m A B n : Nat) :
    (([(m, A), (m, B)] : List (Nat × Nat)).filter (fun e => e.2 = n)).length =
      (if A = n then 1 else 0) + (if B = n then 1 else 0) := by
  by_cases h1 : A = n <;> by_cases h2 : B = n <;> simp [List.filter, h1, h2]

/-- One merge step preserves the loop invariant and shrinks the unmerged
list by exactly one. -/
theorem loopInv_step {F : Nat → Nat → CouplingGraph → ℚ} {cg : CouplingGraph}
    {q : Nat} {g : DiGraph} {items : List Nat} {A B : Nat}
    (hInv : LoopInv q g items)
    (hsel : selectPair F cg items = some (A, B)) :
    LoopInv q (mergeStep g items A B).1 (mergeStep g items A B).2 ∧
      (mergeStep g items A B).2.length + 1 = items.length := by
  have hsub := selectPair_sublist hsel
  have hA : A ∈ items := hsub.subset (by simp)
  have hB : B ∈ items := hsub.subset (by simp)
  have hABlt : A < B :=
    List.rel_of_pairwise_cons (List.Pairwise.sublist hsub hInv.sorted) (by simp)
  have hAB : A ≠ B := Nat.ne_of_lt hABlt
  have hAm : A < g.numNodes := hInv.mem_lt A hA
  have hBm : B < g.numNodes := hInv.mem_lt B hB
  have hnd : items.Nodup := List.Pairwise.imp (fun h => Nat.ne_of_lt h) hInv.sorted
  have hBe : B ∈ items.erase A := mem_erase_of_pair_sublist hsub
  have hG : (mergeStep g items A B).1 =
      DiGraph.mk (g.nodes ++ [(g.numNodes, [])])
        (g.edges ++ [(g.numNodes, A), (g.numNodes, B)]) :=
    mergeStep_graph hInv.ids hInv.edge_ub hAm hBm hAB
  have hI : (mergeStep g items A B).2 =
      (items.erase A).erase B ++ [g.numNodes] := by
    simp only [mergeStep]
  have hlen2 : 2 ≤ items.length := pair_sublist_length hsub
  have hlenE : ((items.erase A).erase B).length + 2 = items.length := by
    rw [List.length_erase_of_mem hBe, List.length_erase_of_mem hA]
    omega
  have hsubE : (items.erase A).erase B <+ items :=
    ((items.erase A).erase_sublist B).trans (items.erase_sublist A)
  have hmemE : ∀ n, n ∈ (items.erase A).erase B ↔ n ≠ B ∧ n ≠ A ∧ n ∈ items := by
    intro n
    rw [List.Nodup.mem_erase_iff (hnd.erase A), List.Nodup.mem_erase_iff hnd]
  have hids' : g.nodes.map Prod.fst = List.range g.nodes.length := hInv.ids
  have hgeq : q ≤ g.numNodes := hInv.ge_q
  have houtd : ∀ n,
      (DiGraph.mk (g.nodes ++ [(g.numNodes, [])])
        (g.edges ++ [(g.numNodes, A), (g.numNodes, B)])).outdeg n =
      g.outdeg n + (if g.numNodes = n then 2 else 0) := by
    intro n
    simp only [DiGraph.outdeg, List.filter_append, List.length_append]
    rw [two_edge_out]
  have hind : ∀ n,
      (DiGraph.mk (g.nodes ++ [(g.numNodes, [])])
        (g.edges ++ [(g.numNodes, A), (g.numNodes, B)])).indeg n =
      g.indeg n + ((if A = n then 1 else 0) + (if B = n then 1 else 0)) := by
    intro n
    simp only [DiGraph.indeg, List.filter_append, List.length_append]
    rw [two_edge_in]
  have houtN : g.outdeg g.numNodes = 0 := by
    have hnil : g.edges.filter (fun e => e.1 = g.numNodes) = [] := by
      apply List.filter_eq_nil_iff.mpr
      intro e he
      simp only [decide_eq_true_eq]
      exact Nat.ne_of_lt (hInv.edge_ub e he)
    simp [DiGraph.outdeg, hnil]
  have hindN : g.indeg g.numNodes = 0 := by
    have hnil : g.edges.filter (fun e => e.2 = g.numNodes) = [] := by
      apply List.filter_eq_nil_iff.mpr
      intro e he
      simp only [decide_eq_true_eq]
      exact Nat.ne_of_lt (lt_trans (hInv.edge_lt e he) (hInv.edge_ub e he))
    simp [DiGraph.indeg, hnil]
  have hmono : ∀ u v, Relation.ReflTransGen g.Edge u v →
      Relation.ReflTransGen
        (DiGraph.mk (g.nodes ++ [(g.numNodes, [])])
          (g.edges ++ [(g.numNodes, A), (g.numNodes, B)])).Edge u v := by
    intro u v h
    exact Relation.ReflTransGen.mono
      (fun x y hxy => List.mem_append_left _ hxy) h
  rw [hG, hI]
  constructor
  · refine ⟨?_, ?_, ?_, ?_, ?_, ?_, ?_, ?_, ?_, ?_, ?_, ?_, ?_⟩
    · simp only [DiGraph.nodeIds, DiGraph.numNodes, List.map_append,
        List.length_append, List.length_singleton, List.map_cons, List.map_nil]
      rw [hids', List.range_succ]
    · intro p hp
      rcases List.mem_append.mp hp with hold | hnew
      · exact hInv.attrs p hold
      · rw [List.mem_singleton.mp hnew]
    · intro e he
      rcases List.mem_append.mp he with hold | hnew
      · exact hInv.edge_lt e hold
      · rcases List.mem_cons.mp hnew with rfl | hnew'
        · exact hAm
        · rw [List.mem_singleton.mp hnew']
          exact hBm
    · intro e he
      simp only [DiGraph.numNodes, List.length_append, List.length_singleton]
      rcases List.mem_append.mp he with hold | hnew
      · have := hInv.edge_ub e hold
        simp only [DiGraph.numNodes] at this
        omega
      · rcases List.mem_cons.mp hnew with rfl | hnew'
        · simp [DiGraph.numNodes]
        · rw [List.mem_singleton.mp hnew']
          simp [DiGraph.numNodes]
    · have hc := hInv.count
      simp only [DiGraph.numNodes, List.length_append, List.length_singleton] at hc ⊢
      omega
    · have := hInv.ge_q
      simp only [DiGraph.numNodes, List.length_append, List.length_singleton] at this ⊢
      omega
    · refine List.pairwise_append.mpr ⟨List.Pairwise.sublist hsubE hInv.sorted, by simp, ?_⟩
      intro x hx y hy
      rw [List.mem_singleton] at hy
      subst hy
      exact hInv.mem_lt x (hsubE.subset hx)
    · intro n hn
      simp only [DiGraph.numNodes, List.length_append, List.length_singleton]
      rcases List.mem_append.mp hn with hold | hnew
      · have := hInv.mem_lt n (hsubE.subset hold)
        simp only [DiGraph.numNodes] at this
        omega
      · rw [List.mem_singleton.mp hnew]
        simp [DiGraph.numNodes]
    · intro n hq
      rw [houtd n, hInv.outdeg_small n hq, if_neg (by omega)]
    · intro n h1 h2
      simp only [DiGraph.numNodes, List.length_append, List.length_singleton] at h2
      by_cases hn : n = g.numNodes
      · subst hn
        rw [houtd, houtN, if_pos rfl]
      · have hlt : n < g.numNodes := by
          simp only [DiGraph.numNodes] at hn ⊢
          omega
        rw [houtd n, hInv.outdeg_big n h1 hlt, if_neg (Ne.symm hn)]
    · intro n hn
      rcases List.mem_append.mp hn with hold | hnew
      · obtain ⟨hnB, hnA, hni⟩ := (hmemE n).mp hold
        rw [hind n, hInv.indeg_mem n hni, if_neg (fun h => hnA h.symm),
          if_neg (fun h => hnB h.symm)]
      · rw [List.mem_singleton.mp hnew]
        rw [hind, hindN, if_neg (by omega), if_neg (by omega)]
    · intro n hlt hnm
      simp only [DiGraph.numNodes, List.length_append, List.length_singleton] at hlt
      by_cases hnA : n = A
      · subst hnA
        rw [hind, hInv.indeg_mem n hA, if_pos rfl, if_neg (fun h => hAB h.symm)]
      · by_cases hnB : n = B
        · subst hnB
          rw [hind, hInv.indeg_mem n hB, if_pos rfl, if_neg hAB]
        · by_cases hnN : n = g.numNodes
          · subst hnN
            exact absurd (List.mem_append_right _ (List.mem_singleton_self _)) hnm
          · have hltN : n < g.numNodes := by
              simp only [DiGraph.numNodes] at hnN ⊢
              omega
            have hni : n ∉ items := by
              intro hni
              exact hnm (List.mem_append_left _
                ((hmemE n).mpr ⟨hnB, hnA, hni⟩))
            rw [hind, hInv.indeg_nonmem n hltN hni,
              if_neg (fun h => hnA h.symm), if_neg (fun h => hnB h.symm)]
    · intro n hlt
      simp only [DiGraph.numNodes, List.length_append, List.length_singleton] at hlt
      by_cases hnN : n = g.numNodes
      · subst hnN
        exact ⟨g.numNodes, List.mem_append_right _ (List.mem_singleton_self _),
          Relation.ReflTransGen.refl⟩
      · have hltN : n < g.numNodes := by
          simp only [DiGraph.numNodes] at hnN ⊢
          omega
        obtain ⟨r, hr, hreach⟩ := hInv.reach n hltN
        by_cases hr' : r ∈ (items.erase A).erase B
        · exact ⟨r, List.mem_append_left _ hr', hmono _ _ hreach⟩
        · have hAoB : r = A ∨ r = B := by
            by_contra hc
            push_neg at hc
            exact hr' ((hmemE r).mpr ⟨hc.2, hc.1, hr⟩)
          have hedge : (DiGraph.mk (g.nodes ++ [(g.numNodes, [])])
              (g.edges ++ [(g.numNodes, A), (g.numNodes, B)])).Edge g.numNodes r := by
            rcases hAoB with rfl | rfl
            · exact List.mem_append_right _ (by simp)
            · exact List.mem_append_right _ (by simp)
          exact ⟨g.numNodes, List.mem_append_right _ (List.mem_singleton_self _),
            Relation.ReflTransGen.head hedge (hmono _ _ hreach)⟩
  · rw [List.length_append, List.length_singleton]
    omega

/-! ### Running the loop -/

theorem transGen_lt {g : DiGraph} (hlt : ∀ e ∈ g.edges, e.2 < e.1) :
    ∀ u v, Relation.TransGen g.Edge u v → v < u := by
  intro u v h
  induction h with
  | single h' => exact hlt _ h'
  | tail _ e ih => exact lt_trans (hlt _ e) ih

theorem acyclic_of_edge_lt {g : DiGraph} (hlt : ∀ e ∈ g.edges, e.2 < e.1) :
    g.Acyclic :=
  fun n hn => absurd (transGen_lt hlt n n hn) (lt_irrefl n)

/-- In any invariant state the roots of the graph built so far are exactly
the unmerged items. -/
theorem rootIds_eq_items {q : Nat} {g : DiGraph} {items : List Nat}
    (hInv : LoopInv q g items) : g.rootIds = items := by
  unfold DiGraph.rootIds
  rw [hInv.ids]
  apply sorted_lt_ext (List.Pairwise.filter _ (List.sorted_lt_range _)) hInv.sorted
  intro x
  rw [List.mem_filter]
  constructor
  · rintro ⟨hxr, hdeg⟩
    rw [decide_eq_true_eq] at hdeg
    by_contra hx
    have := hInv.indeg_nonmem x (List.mem_range.mp hxr) hx
    omega
  · intro hx
    refine ⟨List.mem_range.mpr (hInv.mem_lt x hx), ?_⟩
    rw [decide_eq_true_eq]
    exact hInv.indeg_mem x hx

theorem singleton_of_short {items : List Nat} (hne : items ≠ [])
    (hlen : ¬ 1 < items.length) : ∃ r, items = [r] := by
  cases items with
  | nil => exact absurd rfl hne
  | cons a t =>
    cases t with
    | nil => exact ⟨a, rfl⟩
    | cons b t' =>
      exfalso
      apply hlen
      simp

theorem mergeLoop_small {F : Nat → Nat → CouplingGraph → ℚ} {cg : CouplingGraph}
    {fuel : Nat} {g : DiGraph} {items : List Nat} (h : ¬ 1 < items.length) :
    mergeLoop F cg fuel g items = g := by
  cases fuel with
  | zero => rfl
  | succ f => simp [mergeLoop, h]

theorem mergeLoop_break {F : Nat → Nat → CouplingGraph → ℚ} {cg : CouplingGraph}
    {fuel : Nat} {g : DiGraph} {items : List Nat}
    (hsel : selectPair F cg items = none) :
    mergeLoop F cg fuel g items = g := by
  cases fuel with
  | zero => rfl
  | succ f =>
    by_cases h : 1 < items.length
    · simp [mergeLoop, h, hsel]
    · simp [mergeLoop, h]

theorem mergeLoop_merge {F : Nat → Nat → CouplingGraph → ℚ} {cg : CouplingGraph}
    {fuel : Nat} {g : DiGraph} {items : List Nat} {A B : Nat}
    (hgt : 1 < items.length) (hsel : selectPair F cg items = some (A, B)) :
    mergeLoop F cg (fuel + 1) g items =
      mergeLoop F cg fuel (mergeStep g items A B).1 (mergeStep g items A B).2 := by
  simp [mergeLoop, hgt, hsel]

/-- Spending one more unit of fuel than the unmerged list could ever use
changes nothing: the translation's fuel bound is never the reason the loop
stops. -/
theorem mergeLoop_fuel_stable {F : Nat → Nat → CouplingGraph → ℚ}
    {cg : CouplingGraph} :
    ∀ (fuel : Nat) (g : DiGraph) (items : List Nat), items.length ≤ fuel + 1 →
      mergeLoop F cg (fuel + 1) g items = mergeLoop F cg fuel g items := by
  intro fuel
  induction fuel with
  | zero =>
    intro g items hlen
    have h : ¬ 1 < items.length := by omega
    rw [mergeLoop_small h, mergeLoop_small h]
  | succ f ih =>
    intro g items hlen
    by_cases hgt : 1 < items.length
    · cases hsel : selectPair F cg items with
      | none => rw [mergeLoop_break hsel, mergeLoop_break hsel]
      | some pr =>
        obtain ⟨A, B⟩ := pr
        have hsub := selectPair_sublist hsel
        have hA : A ∈ items := hsub.subset (by simp)
        have hBe : B ∈ items.erase A := mem_erase_of_pair_sublist hsub
        have hlenE : ((items.erase A).erase B).length + 2 = items.length := by
          rw [List.length_erase_of_mem hBe, List.length_erase_of_mem hA]
          have := pair_sublist_length hsub
          omega
        have hlen' : (mergeStep g items A B).2.length + 1 = items.length := by
          simp only [mergeStep, List.length_append, List.length_singleton]
          omega
        rw [mergeLoop_merge hgt hsel, mergeLoop_merge hgt hsel]
        exact ih _ _ (by omega)
    · rw [mergeLoop_small hgt, mergeLoop_small hgt]

/-- Every state the loop can reach satisfies the invariant. -/
theorem reaches_inv {F : Nat → Nat → CouplingGraph → ℚ} {cg : CouplingGraph}
    {q : Nat} {s : DiGraph × List Nat} (h : Reaches F cg q s) :
    LoopInv q s.1 s.2 := by
  induction h with
  | init =>
    have := loopInv_init q
    rwa [← initHT_nodeIds] at this
  | step _ hlen hsel ih => exact (loopInv_step ih hsel).1

/-- When every pair score beats the `-1` sentinel, the loop runs to a single
unmerged item and the final state still satisfies the invariant. -/
theorem mergeLoop_full {F : Nat → Nat → CouplingGraph → ℚ} {cg : CouplingGraph}
    {q : Nat} (hF : ∀ x y, -1 < F x y cg) :
    ∀ (fuel : Nat) (g : DiGraph) (items : List Nat), LoopInv q g items →
      items ≠ [] → items.length ≤ fuel + 1 →
      ∃ r, LoopInv q (mergeLoop F cg fuel g items) [r] := by
  intro fuel
  induction fuel with
  | zero =>
    intro g items hInv hne hlen
    obtain ⟨r, rfl⟩ := singleton_of_short hne (by omega)
    exact ⟨r, hInv⟩
  | succ f ih =>
    intro g items hInv hne hlen
    by_cases hgt : 1 < items.length
    · obtain ⟨A, B, hsel⟩ := selectPair_isSome hgt hF
      obtain ⟨hInv', hlen'⟩ := loopInv_step hInv hsel
      have hne' : (mergeStep g items A B).2 ≠ [] := by
        intro h0
        rw [h0] at hlen'
        simp at hlen'
        omega
      rw [mergeLoop_merge hgt hsel]
      exact ih _ _ hInv' hne' (by omega)
    · obtain ⟨r, rfl⟩ := singleton_of_short hne hgt
      rw [mergeLoop_small hgt]
      exact ⟨r, hInv⟩

theorem generate_eq_mergeLoop (F : Nat → Nat → CouplingGraph → ℚ)
    (q : Nat) (cg : CouplingGraph) :
    generate_hierarchy_tree F q cg =
      mergeLoop F cg q (initHT q) (List.range q) := by
  simp only [generate_hierarchy_tree]
  rw [initHT_nodeIds]

/-- The full specification of the built tree when every pair score beats the
sentinel: `q` leaves `0, …, q-1`, internal nodes `q, …, 2q-2`, a unique root
`2q-2` (the last-created node) reaching every node, and no cycles. -/
theorem generate_spec {F : Nat → Nat → CouplingGraph → ℚ} {cg : CouplingGraph}
    {q : Nat} (hq : 1 ≤ q) (hF : ∀ x y, -1 < F x y cg) :
    (generate_hierarchy_tree F q cg).numNodes = 2 * q - 1 ∧
    (generate_hierarchy_tree F q cg).leafIds = List.range q ∧
    (generate_hierarchy_tree F q cg).internalIds =
      (List.range (q - 1)).map (fun i => q + i) ∧
    (generate_hierarchy_tree F q cg).rootIds = [2 * q - 2] ∧
    (generate_hierarchy_tree F q cg).Acyclic ∧
    (generate_hierarchy_tree F q cg).ReachAll (2 * q - 2) := by
  rw [generate_eq_mergeLoop]
  obtain ⟨r, hinv⟩ := mergeLoop_full hF q (initHT q) (List.range q)
    (loopInv_init q) (by simp; omega) (by simp)
  have hNum : (mergeLoop F cg q (initHT q) (List.range q)).numNodes = 2 * q - 1 := by
    have := hinv.count
    simp only [List.length_singleton] at this
    omega
  have hr : r = 2 * q - 2 := by
    by_contra hne
    have h2q : 2 * q - 2 < (mergeLoop F cg q (initHT q) (List.range q)).numNodes := by
      omega
    have hnm : 2 * q - 2 ∉ [r] := by
      simp only [List.mem_singleton]
      exact fun h => hne h.symm
    have hdeg := hinv.indeg_nonmem (2 * q - 2) h2q hnm
    have hfe : (mergeLoop F cg q (initHT q) (List.range q)).edges.filter
        (fun e => e.2 = (2 * q - 2)) ≠ [] := by
      intro h0
      unfold DiGraph.indeg at hdeg
      rw [h0] at hdeg
      simp at hdeg
    obtain ⟨e, he⟩ := List.exists_mem_of_ne_nil _ hfe
    obtain ⟨hee, hpe⟩ := List.mem_filter.mp he
    rw [decide_eq_true_eq] at hpe
    have h1 := hinv.edge_lt e hee
    have h2 := hinv.edge_ub e hee
    omega
  subst hr
  have hids : (mergeLoop F cg q (initHT q) (List.range q)).nodeIds =
      List.range (2 * q - 1) := by
    rw [hinv.ids, hNum]
  have hsplit : List.range (2 * q - 1) =
      List.range q ++ (List.range (q - 1)).map (q + ·) := by
    rw [← List.range_add]
    congr 1
    omega
  refine ⟨hNum, ?_, ?_, ?_, acyclic_of_edge_lt hinv.edge_lt, ?_⟩
  · unfold DiGraph.leafIds
    rw [hids]
    have hcong : ∀ n ∈ List.range (2 * q - 1),
        (decide ((mergeLoop F cg q (initHT q) (List.range q)).outdeg n = 0)) =
          (decide (n < q)) := by
      intro n hn
      have hnlt : n < 2 * q - 1 := List.mem_range.mp hn
      by_cases hnq : n < q
      · rw [hinv.outdeg_small n hnq]
        simp [hnq]
      · rw [hinv.outdeg_big n (by omega) (by omega)]
        simp [hnq]
    rw [List.filter_congr hcong, hsplit, List.filter_append]
    have hfull : (List.range q).filter (fun n => decide (n < q)) = List.range q :=
      List.filter_eq_self.mpr (fun a ha => by simp [List.mem_range.mp ha])
    have hnil : ((List.range (q - 1)).map (q + ·)).filter
        (fun n => decide (n < q)) = [] := by
      apply List.filter_eq_nil_iff.mpr
      intro a ha
      obtain ⟨i, _, rfl⟩ := List.mem_map.mp ha
      simp
    rw [hfull, hnil, List.append_nil]
  · unfold DiGraph.internalIds
    rw [hids]
    have hcong : ∀ n ∈ List.range (2 * q - 1),
        (decide (0 < (mergeLoop F cg q (initHT q) (List.range q)).outdeg n)) =
          (decide (q ≤ n)) := by
      intro n hn
      have hnlt : n < 2 * q - 1 := List.mem_range.mp hn
      by_cases hnq : n < q
      · rw [hinv.outdeg_small n hnq]
        have hq2 : ¬ q ≤ n := by omega
        simp [hq2]
      · rw [hinv.outdeg_big n (by omega) (by omega)]
        have hq2 : q ≤ n := by omega
        simp [hq2]
    rw [List.filter_congr hcong, hsplit, List.filter_append]
    have hnil : (List.range q).filter (fun n => decide (q ≤ n)) = [] := by
      apply List.filter_eq_nil_iff.mpr
      intro a ha
      have := List.mem_range.mp ha
      simp
      omega
    have hfull : ((List.range (q - 1)).map (q + ·)).filter
        (fun n => decide (q ≤ n)) = (List.range (q - 1)).map (q + ·) := by
      apply List.filter_eq_self.mpr
      intro a ha
      obtain ⟨i, _, rfl⟩ := List.mem_map.mp ha
      simp
    rw [hnil, hfull, List.nil_append]
  · unfold DiGraph.rootIds
    rw [hids]
    have hcong : ∀ n ∈ List.range (2 * q - 1),
        (decide ((mergeLoop F cg q (initHT q) (List.range q)).indeg n = 0)) =
          (decide (n = 2 * q - 2)) := by
      intro n hn
      have hnlt : n < 2 * q - 1 := List.mem_range.mp hn
      by_cases hnr : n = 2 * q - 2
      · subst hnr
        rw [hinv.indeg_mem _ (List.mem_singleton_self _)]
        simp
      · rw [hinv.indeg_nonmem n (by omega) (by simpa using hnr)]
        simp [hnr]
    rw [List.filter_congr hcong]
    exact filter_range_eq_single (by omega)
  · intro n hn
    rw [hids] at hn
    obtain ⟨r', hr', hreach⟩ := hinv.reach n (by
      rw [hNum]
      exact List.mem_range.mp hn)
    rw [List.mem_singleton.mp hr'] at hreach
    exact hreach

/-! ### The builder is a function of the scores alone (determinism) -/

theorem foldl_scan_congr {F₁ F₂ : Nat → Nat → CouplingGraph → ℚ}
    {cg : CouplingGraph} (h : ∀ a b, F₁ a b cg = F₂ a b cg) :
    ∀ (ps : List (Nat × Nat)) (st : ℚ × Option (Nat × Nat)),
      ps.foldl (scanStep F₁ cg) st = ps.foldl (scanStep F₂ cg) st := by
  intro ps
  induction ps with
  | nil => intro st; rfl
  | cons p ps ih =>
    intro st
    rw [List.foldl_cons, List.foldl_cons]
    have hstep : scanStep F₁ cg st p = scanStep F₂ cg st p := by
      simp only [scanStep, h p.1 p.2]
    rw [hstep]
    exact ih _

theorem selectPair_congr {F₁ F₂ : Nat → Nat → CouplingGraph → ℚ}
    {cg : CouplingGraph} (h : ∀ a b, F₁ a b cg = F₂ a b cg) (items : List Nat) :
    selectPair F₁ cg items = selectPair F₂ cg items := by
  unfold selectPair
  rw [foldl_scan_congr h]

theorem mergeLoop_congr {F₁ F₂ : Nat → Nat → CouplingGraph → ℚ}
    {cg : CouplingGraph} (h : ∀ a b, F₁ a b cg = F₂ a b cg) :
    ∀ (fuel : Nat) (g : DiGraph) (items : List Nat),
      mergeLoop F₁ cg fuel g items = mergeLoop F₂ cg fuel g items := by
  intro fuel
  induction fuel with
  | zero => intro g items; rfl
  | succ f ih =>
    intro g items
    by_cases hgt : 1 < items.length
    · cases hsel : selectPair F₂ cg items with
      | none =>
        rw [mergeLoop_break (by rw [selectPair_congr h]; exact hsel),
          mergeLoop_break hsel]
      | some pr =>
        obtain ⟨A, B⟩ := pr
        rw [mergeLoop_merge hgt (by rw [selectPair_congr h]; exact hsel),
          mergeLoop_merge hgt hsel]
        exact ih _ _
    · rw [mergeLoop_small hgt, mergeLoop_small hgt]

theorem reaches_congr {F₁ F₂ : Nat → Nat → CouplingGraph → ℚ}
    {cg : CouplingGraph} {q : Nat} (h : ∀ a b, F₁ a b cg = F₂ a b cg)
    {s : DiGraph × List Nat} (hr : Reaches F₁ cg q s) : Reaches F₂ cg q s := by
  induction hr with
  | init => exact Reaches.init
  | step _ hlen hsel ih =>
    exact Reaches.step ih hlen (by rw [← selectPair_congr h]; exact hsel)

/-! ### The coupling graph is never written -/

theorem foldl_scanST_graph {F : Nat → Nat → CouplingGraph → ℚ × CouplingGraph}
    (hF : ∀ a b g, (F a b g).2 = g) :
    ∀ (ps : List (Nat × Nat)) (st : (ℚ × Option (Nat × Nat)) × CouplingGraph),
      (ps.foldl (scanStepST F) st).2 = st.2 := by
  intro ps
  induction ps with
  | nil => intro st; rfl
  | cons p ps ih =>
    intro st
    rw [List.foldl_cons]
    rw [ih]
    simp only [scanStepST]
    rw [hF]

theorem selectPairST_graph {F : Nat → Nat → CouplingGraph → ℚ × CouplingGraph}
    (hF : ∀ a b g, (F a b g).2 = g) (items : List Nat) (cg : CouplingGraph) :
    (selectPairST F items cg).2 = cg := by
  simp only [selectPairST]
  exact foldl_scanST_graph hF _ _

theorem mergeLoopST_graph {F : Nat → Nat → CouplingGraph → ℚ × CouplingGraph}
    (hF : ∀ a b g, (F a b g).2 = g) :
    ∀ (fuel : Nat) (g : DiGraph) (items : List Nat) (cg : CouplingGraph),
      (mergeLoopST F fuel g items cg).2 = cg := by
  intro fuel
  induction fuel with
  | zero => intro g items cg; rfl
  | succ f ih =>
    intro g items cg
    by_cases hgt : 1 < items.length
    · rcases hsel : selectPairST F items cg with ⟨op, cg'⟩
      have hcg' : cg' = cg := by
        have := selectPairST_graph hF items cg
        rw [hsel] at this
        exact this
      rcases op with _ | ⟨A, B⟩
      · simp [mergeLoopST, hgt, hsel, hcg']
      · simp only [mergeLoopST, if_pos hgt, hsel]
        rw [ih, hcg']
    · simp [mergeLoopST, hgt]

theorem generate_ST_graph {F : Nat → Nat → CouplingGraph → ℚ × CouplingGraph}
    {qubits : Nat} {cg : CouplingGraph} (hF : ∀ a b g, (F a b g).2 = g) :
    (generate_hierarchy_treeST F qubits cg).2 = cg := by
  simp only [generate_hierarchy_treeST]
  exact mergeLoopST_graph hF _ _ _ _

/-! ### The notebook's own `F` raises `TypeError` -/

theorem selectPairE_error {cg : CouplingGraph} {items : List Nat}
    (hlen : 1 < items.length) :
    selectPairE cg items = Except.error "TypeError" := by
  obtain ⟨a, b, t, rfl⟩ : ∃ a b t, items = a :: b :: t := by
    match items, hlen with
    | a :: b :: t, _ => exact ⟨a, b, t, rfl⟩
  unfold selectPairE
  have hp : pairList (a :: b :: t) =
      (a, b) :: (t.map (fun x => (a, x)) ++ pairList (b :: t)) := by
    simp [pairList]
  rw [hp]
  rfl

theorem mergeLoopE_error {cg : CouplingGraph} {fuel : Nat} {g : DiGraph}
    {items : List Nat} (hlen : 1 < items.length) :
    mergeLoopE cg (fuel + 1) g items = Except.error "TypeError" := by
  have hsel := @selectPairE_error cg items hlen
  simp [mergeLoopE, hlen, hsel]

theorem generate_src_error {q : Nat} {cg : CouplingGraph} (hq : 2 ≤ q) :
    generate_hierarchy_tree_src q cg = Except.error "TypeError" := by
  obtain ⟨f, rfl⟩ : ∃ f, q = f + 1 := ⟨q - 1, by omega⟩
  simp only [generate_hierarchy_tree_src]
  rw [initHT_nodeIds]
  apply mergeLoopE_error
  simp
  omega

/-! ### No attributes are ever attached to a node -/

theorem add_node_attrs {g : DiGraph} {n : Nat}
    (h : ∀ p ∈ g.nodes, p.2 = ([] : List (String × ℚ))) :
    ∀ p ∈ (g.add_node n).nodes, p.2 = ([] : List (String × ℚ)) := by
  intro p hp
  by_cases hm : n ∈ g.nodeIds
  · rw [add_node_of_mem hm] at hp
    exact h p hp
  · rw [add_node_of_not_mem hm] at hp
    rcases List.mem_append.mp hp with h1 | h2
    · exact h p h1
    · rw [List.mem_singleton.mp h2]

theorem add_edge_of_mem {g : DiGraph} {u v : Nat}
    (h : (u, v) ∈ ((g.add_node u).add_node v).edges) :
    g.add_edge u v = (g.add_node u).add_node v := by
  unfold DiGraph.add_edge
  rw [if_pos h]

theorem add_edge_nodes (g : DiGraph) (u v : Nat) :
    (g.add_edge u v).nodes = ((g.add_node u).add_node v).nodes := by
  by_cases h : (u, v) ∈ ((g.add_node u).add_node v).edges
  · rw [add_edge_of_mem h]
  · rw [add_edge_of_not_mem h]

theorem add_edge_attrs {g : DiGraph} {u v : Nat}
    (h : ∀ p ∈ g.nodes, p.2 = ([] : List (String × ℚ))) :
    ∀ p ∈ (g.add_edge u v).nodes, p.2 = ([] : List (String × ℚ)) := by
  rw [add_edge_nodes]
  exact add_node_attrs (add_node_attrs h)

theorem mergeStep_attrs {g : DiGraph} {items : List Nat} {A B : Nat}
    (h : ∀ p ∈ g.nodes, p.2 = ([] : List (String × ℚ))) :
    ∀ p ∈ (mergeStep g items A B).1.nodes, p.2 = ([] : List (String × ℚ)) := by
  simp only [mergeStep]
  exact add_node_attrs (add_edge_attrs (add_edge_attrs h))

theorem mergeLoop_attrs {F : Nat → Nat → CouplingGraph → ℚ} {cg : CouplingGraph} :
    ∀ (fuel : Nat) (g : DiGraph) (items : List Nat),
      (∀ p ∈ g.nodes, p.2 = ([] : List (String × ℚ))) →
      ∀ p ∈ (mergeLoop F cg fuel g items).nodes, p.2 = ([] : List (String × ℚ)) := by
  intro fuel
  induction fuel with
  | zero => intro g items h; exact h
  | succ f ih =>
    intro g items h
    by_cases hgt : 1 < items.length
    · cases hsel : selectPair F cg items with
      | none =>
        rw [mergeLoop_break hsel]
        exact h
      | some pr =>
        obtain ⟨A, B⟩ := pr
        rw [mergeLoop_merge hgt hsel]
        exact ih _ _ (mergeStep_attrs h)
    · rw [mergeLoop_small hgt]
      exact h

theorem generate_attrs (F : Nat → Nat → CouplingGraph → ℚ) (q : Nat)
    (cg : CouplingGraph) :
    ∀ p ∈ (generate_hierarchy_tree F q cg).nodes,
      p.2 = ([] : List (String × ℚ)) := by
  rw [generate_eq_mergeLoop]
  apply mergeLoop_attrs
  intro p hp
  rw [initHT_eq] at hp
  obtain ⟨n, _, rfl⟩ := List.mem_map.mp hp
  rfl

theorem storedScore_none {g : DiGraph} {n : Nat}
    (h : ∀ p ∈ g.nodes, p.2 = ([] : List (String × ℚ))) :
    g.storedScore n = none := by
  unfold DiGraph.storedScore DiGraph.nodeAttr
  cases hf : g.nodes.find? (fun p => p.1 == n) with
  | none => rfl
  | some p =>
    have hp : p ∈ g.nodes := List.mem_of_find?_eq_some hf
    simp [h p hp]

/-! ### The claims -/

/-- C1: the claimed shape (exactly `N-1` internal nodes, a single root,
connected) fails on the code for a legitimate real-valued score function.
With the constant score `-1` on 2 qubits, no pair ever beats the loop's
initial `f_max = -1`, so no merge happens: the builder returns the bare
2-leaf forest with no internal node and two roots, where the claim requires
one internal node and a single root.  This contradicts the notebook's own
pseudocode comment, which loops `while not all items in HT are merged`. -/
theorem tree_builder_low_scores_forest :
    (generate_hierarchy_tree (fun _ _ _ => (-1 : ℚ)) 2 cg0).internalIds = [] ∧
    (generate_hierarchy_tree (fun _ _ _ => (-1 : ℚ)) 2 cg0).rootIds = [0, 1] ∧
    (generate_hierarchy_tree (fun _ _ _ => (-1 : ℚ)) 2 cg0).edges = [] := by
  decide

/-- C2: with the notebook's own `F` (body `pass`, returning `None`), the
comparison `f > f_max` raises `TypeError` on the very first pair, so for
every model with at least two qubits the builder never returns normally. -/
theorem src_builder_raises_typeerror (q : Nat) (cg : CouplingGraph)
    (hq : 2 ≤ q) :
    generate_hierarchy_tree_src q cg = Except.error "TypeError" :=
  generate_src_error hq

/-- Witness for C2 at `qubits = 2`. -/
theorem src_builder_raises_typeerror_witness :
    generate_hierarchy_tree_src 2 cg0 = Except.error "TypeError" :=
  src_builder_raises_typeerror 2 cg0 (by decide)

/-- C3 counterexample: on zero qubits the builder does not fail at all — it
returns normally with the empty graph, so no EmptyTopology condition is
raised. -/
theorem zero_qubits_returns_value :
    generate_hierarchy_tree_src 0 cg0 = Except.ok (DiGraph.mk [] []) := rfl

/-- C3 amended: invoked on zero qubits, the builder (with the notebook's
`F`, and with any score function) returns the empty graph; there is no
EmptyTopology failure in the code. -/
theorem zero_qubits_empty_graph :
    (∀ cg : CouplingGraph,
      generate_hierarchy_tree_src 0 cg = Except.ok (DiGraph.mk [] [])) ∧
    (∀ (F : Nat → Nat → CouplingGraph → ℚ) (cg : CouplingGraph),
      generate_hierarchy_tree F 0 cg = DiGraph.mk [] []) :=
  ⟨fun _ => rfl, fun _ _ => rfl⟩

/-- C4: at every state the builder's loop can reach, whenever a pair is
selected it consists of two distinct unmerged items `A < B`, its score
strictly exceeds `-1`, no other unmerged pair scores higher, and every
unmerged pair tying with it for the maximum is lexicographically at least
`(A, B)` — so the merged pair is the lexicographically smallest among the
tied maxima, independent of evaluation order. -/
theorem merge_pick_lex_least (F : Nat → Nat → CouplingGraph → ℚ)
    (cg : CouplingGraph) (q : Nat) (g : DiGraph) (items : List Nat)
    (hR : Reaches F cg q (g, items)) (A B : Nat)
    (hsel : selectPair F cg items = some (A, B)) :
    A ∈ items ∧ B ∈ items ∧ A < B ∧ -1 < F A B cg ∧
    (∀ A' B', A' ∈ items → B' ∈ items → A' < B' → F A' B' cg ≤ F A B cg) ∧
    (∀ A' B', A' ∈ items → B' ∈ items → A' < B' → F A' B' cg = F A B cg →
      A < A' ∨ (A = A' ∧ B ≤ B')) := by
  have hInv := reaches_inv hR
  have hs : items.Sorted (· < ·) := hInv.sorted
  have hsub := selectPair_sublist hsel
  have hA : A ∈ items := hsub.subset (by simp)
  have hB : B ∈ items := hsub.subset (by simp)
  have hABlt : A < B :=
    List.rel_of_pairwise_cons (List.Pairwise.sublist hsub hs) (by simp)
  refine ⟨hA, hB, hABlt, selectPair_pos hsel, ?_, ?_⟩
  · intro A' B' hA' hB' hlt
    exact selectPair_max hsel (A', B') (pairList_mem_of_sorted hs hA' hB' hlt)
  · intro A' B' hA' hB' hlt htie
    have hmem := pairList_mem_of_sorted hs hA' hB' hlt
    have hlex := selectPair_lex_min hs hsel (A', B') hmem htie
    rcases hlex with heq | hlex'
    · have h12 : A = A' ∧ B = B' := by
        rw [Prod.mk.injEq] at heq
        exact heq
      exact Or.inr ⟨h12.1, le_of_eq h12.2⟩
    · rcases hlex' with h1 | ⟨h1, h2⟩
      · exact Or.inl h1
      · exact Or.inr ⟨h1, le_of_lt h2⟩

/-- Witness for C4 at the initial state of a 2-qubit run with constant
score 0: the selected pair is `(0, 1)`. -/
theorem merge_pick_lex_least_witness :
    0 ∈ (initHT 2).nodeIds ∧ 1 ∈ (initHT 2).nodeIds ∧ 0 < 1 ∧
    -1 < (fun _ _ _ => (0 : ℚ)) 0 1 cg0 ∧
    (∀ A' B', A' ∈ (initHT 2).nodeIds → B' ∈ (initHT 2).nodeIds → A' < B' →
      (fun _ _ _ => (0 : ℚ)) A' B' cg0 ≤ (fun _ _ _ => (0 : ℚ)) 0 1 cg0) ∧
    (∀ A' B', A' ∈ (initHT 2).nodeIds → B' ∈ (initHT 2).nodeIds → A' < B' →
      (fun _ _ _ => (0 : ℚ)) A' B' cg0 = (fun _ _ _ => (0 : ℚ)) 0 1 cg0 →
      0 < A' ∨ (0 = A' ∧ 1 ≤ B')) :=
  merge_pick_lex_least (fun _ _ _ => (0 : ℚ)) cg0 2 (initHT 2)
    ((initHT 2).nodeIds) Reaches.init 0 1 (by decide)

/-- C5: the builder is a pure function of the pair scores — two score
functions that agree on the coupling graph produce the same tree, and the
loop passes through exactly the same states (so the same merges happen in
the same order, tie-breaks included). -/
theorem builder_deterministic (q : Nat) (cg : CouplingGraph)
    (F₁ F₂ : Nat → Nat → CouplingGraph → ℚ)
    (h : ∀ a b, F₁ a b cg = F₂ a b cg) :
    generate_hierarchy_tree F₁ q cg = generate_hierarchy_tree F₂ q cg ∧
    (∀ s, Reaches F₁ cg q s ↔ Reaches F₂ cg q s) := by
  constructor
  · rw [generate_eq_mergeLoop, generate_eq_mergeLoop]
    exact mergeLoop_congr h _ _ _
  · intro s
    exact ⟨reaches_congr h, reaches_congr (fun a b => (h a b).symm)⟩

/-- Witness for C5: two syntactically different but pointwise-equal score
functions give the same tree on 3 qubits. -/
theorem builder_deterministic_witness :
    generate_hierarchy_tree (fun _ _ _ => (1 : ℚ)) 3 cg0 =
      generate_hierarchy_tree (fun _ _ _ => (2 : ℚ) - 1) 3 cg0 :=
  (builder_deterministic 3 cg0 _ _ (fun _ _ => by norm_num)).1

/-- C6 counterexample: with constant score 5 on 2 qubits, the merge at
score 5 creates internal node 2, but the claimed stored PairScore is not
there — no score is recorded on the node. -/
theorem internal_node_score_not_stored :
    (generate_hierarchy_tree (fun _ _ _ => (5 : ℚ)) 2 cg0).internalIds = [2] ∧
    ¬ ((generate_hierarchy_tree (fun _ _ _ => (5 : ℚ)) 2 cg0).storedScore 2 =
        some 5) := by
  decide

/-- C6 amended: every node of the returned tree carries an empty attribute
list, so no merge score is retrievable from any node: the winning score is
used only to choose the pair and is then discarded. -/
theorem builder_nodes_bare (F : Nat → Nat → CouplingGraph → ℚ) (q : Nat)
    (cg : CouplingGraph) :
    (∀ p ∈ (generate_hierarchy_tree F q cg).nodes,
      p.2 = ([] : List (String × ℚ))) ∧
    (∀ n, (generate_hierarchy_tree F q cg).storedScore n = none) :=
  ⟨generate_attrs F q cg, fun _ => storedScore_none (generate_attrs F q cg)⟩

/-- Witness for C6's amended statement at a concrete merge. -/
theorem builder_nodes_bare_witness :
    (generate_hierarchy_tree (fun _ _ _ => (7 : ℚ)) 2 cg0).storedScore 2 =
      none :=
  (builder_nodes_bare (fun _ _ _ => (7 : ℚ)) 2 cg0).2 2

/-- C7 counterexample: if the score function's defined minimum is `-1`
(or anything not exceeding the loop's `f_max` sentinel), the builder on the
fully-disconnected 4-qubit topology performs no merge at all: the result
has no 3 internal nodes and no single root. -/
theorem scenario_c_min_at_sentinel_fails :
    ¬ ((generate_hierarchy_tree (fun _ _ _ => (-1 : ℚ)) 4 cg4).internalIds.length = 3 ∧
       (generate_hierarchy_tree (fun _ _ _ => (-1 : ℚ)) 4 cg4).rootIds.length = 1) := by
  decide

/-- C7 amended: provided the defined minimum score `m` strictly exceeds the
sentinel `-1`, the builder on the fully-disconnected 4-qubit topology
terminates with a single valid tree — 4 leaves, 3 internal nodes, a unique
root reaching everything, no cycles — and every merge it performs is at
score `m`. -/
theorem scenario_c_disconnected_tree (m : ℚ) (hm : -1 < m) :
    (generate_hierarchy_tree (fun _ _ _ => m) 4 cg4).leafIds = [0, 1, 2, 3] ∧
    (generate_hierarchy_tree (fun _ _ _ => m) 4 cg4).internalIds = [4, 5, 6] ∧
    (generate_hierarchy_tree (fun _ _ _ => m) 4 cg4).rootIds = [6] ∧
    (generate_hierarchy_tree (fun _ _ _ => m) 4 cg4).Acyclic ∧
    (generate_hierarchy_tree (fun _ _ _ => m) 4 cg4).ReachAll 6 ∧
    (∀ g items A B, Reaches (fun _ _ _ => m) cg4 4 (g, items) →
      selectPair (fun _ _ _ => m) cg4 items = some (A, B) →
      (fun _ _ _ => m : Nat → Nat → CouplingGraph → ℚ) A B cg4 = m) := by
  obtain ⟨hN, hleaf, hint, hroot, hacy, hreach⟩ :=
    @generate_spec (fun _ _ _ => m) cg4 4 (by norm_num) (fun _ _ => hm)
  have h6 : (2 * 4 - 2 : Nat) = 6 := by norm_num
  refine ⟨?_, ?_, ?_, hacy, ?_, ?_⟩
  · rw [hleaf]
    rfl
  · rw [hint]
    rfl
  · rw [hroot, h6]
  · rw [← h6]
    exact hreach
  · intro g items A B _ _
    rfl

/-- Witness for C7's amended statement at minimum score 0. -/
theorem scenario_c_disconnected_tree_witness :
    (generate_hierarchy_tree (fun _ _ _ => (0 : ℚ)) 4 cg4).leafIds = [0, 1, 2, 3] ∧
    (generate_hierarchy_tree (fun _ _ _ => (0 : ℚ)) 4 cg4).internalIds = [4, 5, 6] ∧
    (generate_hierarchy_tree (fun _ _ _ => (0 : ℚ)) 4 cg4).rootIds = [6] ∧
    (generate_hierarchy_tree (fun _ _ _ => (0 : ℚ)) 4 cg4).Acyclic ∧
    (generate_hierarchy_tree (fun _ _ _ => (0 : ℚ)) 4 cg4).ReachAll 6 ∧
    (∀ g items A B, Reaches (fun _ _ _ => (0 : ℚ)) cg4 4 (g, items) →
      selectPair (fun _ _ _ => (0 : ℚ)) cg4 items = some (A, B) →
      (fun _ _ _ => (0 : ℚ) : Nat → Nat → CouplingGraph → ℚ) A B cg4 = 0) :=
  scenario_c_disconnected_tree 0 (by norm_num)

/-- C8: on a single qubit the loop never runs: the result is the one-node
graph whose only node is the root leaf `0`, with no internal node, and the
notebook's own `F` is never called so even the source builder returns
normally. -/
theorem single_qubit_root_leaf (F : Nat → Nat → CouplingGraph → ℚ)
    (cg : CouplingGraph) :
    generate_hierarchy_tree F 1 cg = DiGraph.mk [(0, [])] [] ∧
    generate_hierarchy_tree_src 1 cg = Except.ok (DiGraph.mk [(0, [])] []) ∧
    (generate_hierarchy_tree F 1 cg).leafIds = [0] ∧
    (generate_hierarchy_tree F 1 cg).internalIds = [] ∧
    (generate_hierarchy_tree F 1 cg).rootIds = [0] :=
  ⟨rfl, rfl, rfl, rfl, rfl⟩

/-- C9: when all pair scores at the start are at most `-1` the loop breaks
immediately and the builder returns the `N`-leaf forest with `N > 1` roots;
at any reachable state where all current pair scores are at most `-1` the
loop returns that state's graph unchanged, whose roots are exactly the
unmerged items; and a merge only ever happens for a pair whose score
strictly exceeds `-1`. -/
theorem low_scores_break_loop (F : Nat → Nat → CouplingGraph → ℚ) (q : Nat)
    (cg : CouplingGraph) (hq : 2 ≤ q) :
    ((∀ a b, F a b cg ≤ -1) →
      generate_hierarchy_tree F q cg = initHT q ∧
      (initHT q).rootIds = List.range q ∧
      (initHT q).edges = [] ∧ 1 < (List.range q).length) ∧
    (∀ g items fuel, Reaches F cg q (g, items) → 1 < items.length →
      (∀ p ∈ pairList items, F p.1 p.2 cg ≤ -1) →
      mergeLoop F cg fuel g items = g ∧ g.rootIds = items) ∧
    (∀ g items A B, Reaches F cg q (g, items) →
      selectPair F cg items = some (A, B) → -1 < F A B cg) := by
  refine ⟨?_, ?_, ?_⟩
  · intro hF
    have hsel : selectPair F cg (List.range q) = none :=
      selectPair_eq_none_iff.mpr (fun p _ => hF p.1 p.2)
    refine ⟨?_, ?_, ?_, ?_⟩
    · rw [generate_eq_mergeLoop]
      exact mergeLoop_break hsel
    · exact rootIds_eq_items (loopInv_init q)
    · rw [initHT_eq]
    · simp
      omega
  · intro g items fuel hR hlen hF
    have hsel : selectPair F cg items = none :=
      selectPair_eq_none_iff.mpr (fun p hp => hF p hp)
    exact ⟨mergeLoop_break hsel, rootIds_eq_items (reaches_inv hR)⟩
  · intro g items A B _ hsel
    exact selectPair_pos hsel

/-- Witness for C9 with constant score `-1` on 2 qubits. -/
theorem low_scores_break_loop_witness :
    generate_hierarchy_tree (fun _ _ _ => (-1 : ℚ)) 2 cg0 = initHT 2 ∧
    (initHT 2).rootIds = List.range 2 ∧
    (initHT 2).edges = [] ∧ 1 < (List.range 2).length :=
  (low_scores_break_loop (fun _ _ _ => (-1 : ℚ)) 2 cg0 (by decide)).1
    (fun _ _ => le_refl _)

/-- C10: the builder never writes to its `coupling_graph` argument — its
only access is passing it to the score function.  Threading the graph
through every score call shows: whenever the score function leaves the
graph unchanged, the graph observable after the call is the one passed
in. -/
theorem coupling_graph_unchanged (F : Nat → Nat → CouplingGraph → ℚ × CouplingGraph)
    (qubits : Nat) (cg : CouplingGraph) (hF : ∀ a b g, (F a b g).2 = g) :
    (generate_hierarchy_treeST F qubits cg).2 = cg :=
  generate_ST_graph hF

/-- Witness for C10 on a 2-qubit run with a non-writing score function. -/
theorem coupling_graph_unchanged_witness :
    (generate_hierarchy_treeST (fun _ _ g => ((1 : ℚ), g)) 2 cg0).2 = cg0 :=
  coupling_graph_unchanged (fun _ _ g => ((1 : ℚ), g)) 2 cg0 (fun _ _ _ => rfl)

end Packing
